import Mathlib

/-!
# Verification of `equal_slices/serial.c`

A shallow embedding of the parallel directory compressor: the directory scan
with its `".txt"` test, `cmp`/`qsort`, the static partition of the sorted file
list into `NUM_THREADS` slices, the worker `compress_slice`, and the loop that
writes the archive.

Modelling conventions.

* A C string is the list of its bytes (the terminating NUL is not stored), each
  byte a natural number below 256.
* C `int` values are unbounded integers: every count in the program is bounded
  by the number of directory entries or by `BUFFER_SIZE`, far below `2^31`.
* The file system, zlib and the byte order of the machine are parameters
  (`Sys`); zlib is an abstract function from input bytes to the complete
  compressed stream.
* A failed `assert` aborts the process; an access outside an array is recorded
  as the fault `out_of_bounds`.
* The worker threads are run one after the other in thread order on the shared
  table (`thread_order_irrelevant`: the other order leaves the same table).
  `compress_slice` records the positions of `files` it reads and the slots of
  `finished_files` it writes, so that the ownership of the slots can be
  stated; `suffix_check` records the positions of `d_name` it reads.
-/

namespace EqualSlices

/-! ## Constants and data -/

/-- The constant `BUFFER_SIZE` (1 MiB). -/
def BUFFER_SIZE : Nat := 1048576

/-- The constant `NUM_THREADS`. -/
def NUM_THREADS : Nat := 2

/-- A C string: its bytes, without the terminating NUL. -/
abbrev CStr := List Nat

/-- The bytes of an ASCII string literal. -/
def cstr (s : String) : CStr := s.toList.map Char.toNat

/-- The library function `strcmp`: the first differing byte decides, a proper
initial segment is smaller.  Only the sign of the result is specified by C. -/
def strcmp : CStr → CStr → Int
  | [], [] => 0
  | [], _ :: _ => -1
  | _ :: _, [] => 1
  | a :: as, b :: bs => if a = b then strcmp as bs else (a : Int) - (b : Int)

/-- The comparison `cmp` handed to `qsort`: `strcmp` of the two names. -/
def cmp (a b : CStr) : Int := strcmp a b

/-- The library function `qsort` on the array of names, ordered by `cmp`:
the result is the arrangement of the array in which `cmp` never exceeds 0 from
an earlier to a later element. -/
def qsort (files : List CStr) : List CStr :=
  files.insertionSort (fun a b => cmp a b ≤ 0)

/-- The struct `compressed_file`: `size` and the bytes `data` points to
(`[]` for the NULL pointer of a zeroed slot). -/
structure compressed_file where
  size : Int
  data : List Nat
deriving DecidableEq, Repr

/-- The struct `worker_args`. -/
structure worker_args where
  num_files : Int
  start_index : Int
  end_index : Int
  directory_name : CStr
  files : List CStr
  finished_files : List compressed_file

/-- One directory entry as `readdir` returns it: the name, and the bytes
stored in memory in front of `d_name` (`before k` is the byte at
`d_name[-(k+1)]`).  What lies there is decided by the layout of `struct dirent`
in the system header, not by the program; on Linux it is `d_type` at
`d_name[-1]` and `d_reclen` at `d_name[-3]` and `d_name[-2]`. -/
structure dirent where
  d_name : CStr
  before : Nat → Nat

/-- Why the process stops early. -/
inductive Fault where
  | assert_f_in
  | assert_deflate
  | assert_f_out
  | out_of_bounds
deriving DecidableEq, Repr

/-- The environment of the program: directory listing, file contents, zlib at
level 9 (the whole compressed stream for an input), whether `text.tzip` can be
created, and the byte order of an `int` in memory. -/
structure Sys where
  opendir : CStr → Option (List dirent)
  fopen_read : CStr → Option (List Nat)
  deflate : List Nat → List Nat
  fopen_write : Bool
  big_endian : Bool

/-! ## The worker `compress_slice` -/

/-- What a worker does at an index, in program order. -/
inductive Event where
  | print (index : Int)
  | read_files (index : Int)
  | write_finished (index : Int)
deriving DecidableEq, Repr

/-- The state a worker leaves: the shared table, its events, and the fault
that stopped it, if any. -/
structure slice_state where
  finished_files : List compressed_file
  events : List Event
  fault : Option Fault
deriving DecidableEq, Repr

/-- Lines 53-86 for one file name: build the path, read at most `BUFFER_SIZE`
bytes, deflate them into a buffer of `BUFFER_SIZE` bytes.  The two assertions
on the file and on the end of the stream can fail; `malloc` and `deflateInit`
are taken to succeed. -/
def compress_file (sys : Sys) (directory_name name : CStr) : Except Fault compressed_file :=
  let full_path := directory_name ++ cstr "/" ++ name
  match sys.fopen_read full_path with
  | none => .error .assert_f_in
  | some content =>
    let buffer_in := content.take BUFFER_SIZE
    let buffer_out := sys.deflate buffer_in
    if buffer_out.length ≤ BUFFER_SIZE then
      .ok { size := (buffer_out.length : Int), data := buffer_out }
    else .error .assert_deflate

/-- The element `files[index]` of the array of names. -/
def files_at (files : List CStr) (index : Int) : Option CStr :=
  if 0 ≤ index then files[index.toNat]? else none

/-- One pass through the body of the `for` loop, lines 51-88, at `index`:
the index is printed, `files[index]` is read, the file is compressed and the
result is stored in `finished_files[index]`. -/
def compress_slice_body (sys : Sys) (args : worker_args) (index : Int)
    (st : slice_state) : slice_state :=
  let ev := st.events ++ [Event.print index, Event.read_files index]
  match files_at args.files index with
  | none => { st with events := ev, fault := some .out_of_bounds }
  | some name =>
    match compress_file sys args.directory_name name with
    | .error f => { st with events := ev, fault := some f }
    | .ok file =>
      if index.toNat < st.finished_files.length then
        { finished_files := st.finished_files.set index.toNat file,
          events := ev ++ [Event.write_finished index], fault := none }
      else
        { st with events := ev ++ [Event.write_finished index],
                  fault := some .out_of_bounds }

/-- The `for` loop of `compress_slice` from `index` on; `fuel` bounds the
number of iterations and is `end_index - start_index` at the call. -/
def compress_slice_loop (sys : Sys) (args : worker_args) :
    Nat → Int → slice_state → slice_state
  | 0, _, st => st
  | fuel + 1, index, st =>
    if index < args.end_index then
      if index ≥ args.num_files then st
      else
        let st1 := compress_slice_body sys args index st
        match st1.fault with
        | some _ => st1
        | none => compress_slice_loop sys args fuel (index + 1) st1
    else st

/-- The function `compress_slice`. -/
def compress_slice (sys : Sys) (args : worker_args) : slice_state :=
  compress_slice_loop sys args (args.end_index - args.start_index).toNat args.start_index
    { finished_files := args.finished_files, events := [], fault := none }

/-! ## `compress_directory` -/

/-- The byte the expression `d_name[i]` reads: a byte of the name for
`0 ≤ i < len`, the terminating NUL at `len`, and for negative `i` the byte
stored in front of the name. -/
def dirent.char_at (e : dirent) (i : Int) : Nat :=
  if 0 ≤ i then e.d_name.getD i.toNat 0 else e.before (-i - 1).toNat

/-- The test of line 111 with its short-circuit evaluation: the positions of
`d_name` it reads, in order, and its result. -/
def suffix_check (e : dirent) : List Int × Bool :=
  let len : Int := (e.d_name.length : Int)
  if e.char_at (len - 4) ≠ 46 then ([len - 4], false)
  else if e.char_at (len - 3) ≠ 116 then ([len - 4, len - 3], false)
  else if e.char_at (len - 2) ≠ 120 then ([len - 4, len - 3, len - 2], false)
  else ([len - 4, len - 3, len - 2, len - 1], decide (e.char_at (len - 1) = 116))

/-- The `readdir` loop, lines 106-117: the names that pass the test, in
directory order. -/
def read_files : List dirent → List CStr
  | [] => []
  | e :: rest => if (suffix_check e).2 then e.d_name :: read_files rest else read_files rest

/-- The arguments packed for thread `i`, lines 137-146, with `nfiles` files. -/
def thread_args (directory_name : CStr) (files : List CStr) (nfiles : Nat)
    (finished_files : List compressed_file) (i : Nat) : worker_args :=
  let slice_size : Nat := nfiles / NUM_THREADS
  { num_files := (nfiles : Int),
    start_index := ((i * slice_size : Nat) : Int),
    end_index := (((i + 1) * slice_size : Nat) : Int),
    directory_name := directory_name,
    files := files,
    finished_files := finished_files }

/-- Threads `i, i+1, ...` (`n` of them) run on the shared table; the first
fault is kept. -/
def run_workers (sys : Sys) (directory_name : CStr) (files : List CStr) :
    Nat → Nat → List compressed_file × Option Fault → List compressed_file × Option Fault
  | 0, _, acc => acc
  | n + 1, i, (table, fault) =>
    let st := compress_slice sys (thread_args directory_name files files.length table i)
    run_workers sys directory_name files n (i + 1)
      (st.finished_files, if fault.isSome then fault else st.fault)

/-- The four bytes of an `int` object in memory. -/
def int_bytes (big_endian : Bool) (v : Int) : List Nat :=
  let u : Nat := (v % 4294967296).toNat
  let le := [u % 256, u / 256 % 256, u / 65536 % 256, u / 16777216 % 256]
  if big_endian then le.reverse else le

/-- The writer loop, lines 158-162: for each slot the `int` `size`, then
`size` bytes from `data`. -/
def write_archive (big_endian : Bool) : List compressed_file → List Nat
  | [] => []
  | f :: rest =>
    int_bytes big_endian f.size ++ f.data.take f.size.toNat ++ write_archive big_endian rest

/-- How a call of `compress_directory` ends: it returns a status, having
printed `stdout` and left `archive` in `text.tzip` (`none`: the file was not
created), or the process is aborted. -/
inductive Outcome where
  | returned (status : Int) (stdout : List String) (archive : Option (List Nat))
  | aborted (fault : Fault)
deriving DecidableEq, Repr

/-- The table after all threads have been joined, lines 135-155. -/
def join_workers (sys : Sys) (directory_name : CStr) (files : List CStr) :
    List compressed_file × Option Fault :=
  run_workers sys directory_name files NUM_THREADS 0
    (List.replicate files.length { size := 0, data := [] }, none)

/-- The function `compress_directory`.  Of its output on `stdout` only the
error line is kept. -/
def compress_directory (sys : Sys) (directory_name : CStr) : Outcome :=
  match sys.opendir directory_name with
  | none => .returned 0 ["An error has occurred\n"] none
  | some entries =>
    let files := qsort (read_files entries)
    if sys.fopen_write then
      match join_workers sys directory_name files with
      | (_, some f) => .aborted f
      | (finished_files, none) =>
        .returned 0 [] (some (write_archive sys.big_endian finished_files))
    else .aborted .assert_f_out

/-! ## A small test directory -/

/-- An entry with the bytes in front of the name that Linux puts there:
`d_type = 8` at `d_name[-1]`, `d_reclen = 24` at `d_name[-3]` and `d_name[-2]`. -/
def entry (name : String) : dirent :=
  { d_name := cstr name, before := fun k => [8, 0, 24].getD k 0 }

/-- A toy codec: the input preceded by its length modulo 256. -/
def toy_deflate (input : List Nat) : List Nat := (input.length % 256) :: input

/-- A directory `d` with the text files `b.txt` and `a.txt` and one other file. -/
def sys_ab : Sys :=
  { opendir := fun d => if d = cstr "d" then
      some [entry ".", entry "..", entry "b.txt", entry "a.txt", entry "notes.md"] else none,
    fopen_read := fun p =>
      if p = cstr "d/a.txt" then some (cstr "A")
      else if p = cstr "d/b.txt" then some (cstr "BB") else none,
    deflate := toy_deflate,
    fopen_write := true,
    big_endian := false }

/-! ## Notions used in the statements -/

/-- The index an event is about. -/
def Event.index : Event → Int
  | .print i => i
  | .read_files i => i
  | .write_finished i => i

/-- Index `idx` lies in the range `[start_index, end_index)` of the arguments. -/
def in_slice (args : worker_args) (idx : Int) : Prop :=
  args.start_index ≤ idx ∧ idx < args.end_index

instance (args : worker_args) (idx : Int) : Decidable (in_slice args idx) := by
  unfold in_slice; infer_instance

/-- The indices below `nfiles` that lie in the range of no thread. -/
def unassigned (directory_name : CStr) (files : List CStr) (nfiles : Nat)
    (finished_files : List compressed_file) : List Nat :=
  (List.range nfiles).filter (fun idx => decide (∀ i, i < NUM_THREADS →
    ¬ in_slice (thread_args directory_name files nfiles finished_files i) (idx : Int)))

/-- The bytes the program stores for a file: the compressed stream of the
first `BUFFER_SIZE` bytes of its content. -/
def stored (sys : Sys) (directory_name name : CStr) : List Nat :=
  match sys.fopen_read (directory_name ++ cstr "/" ++ name) with
  | some content => sys.deflate (content.take BUFFER_SIZE)
  | none => []

/-- The table slot that holds `stored`. -/
def slot_of (sys : Sys) (directory_name name : CStr) : compressed_file :=
  { size := ((stored sys directory_name name).length : Int),
    data := stored sys directory_name name }

/-- The file can be opened and its compressed stream fits the output buffer:
neither assertion of the worker fails on it. -/
def processable (sys : Sys) (directory_name name : CStr) : Prop :=
  ∃ content, sys.fopen_read (directory_name ++ cstr "/" ++ name) = some content ∧
    (sys.deflate (content.take BUFFER_SIZE)).length ≤ BUFFER_SIZE

/-- The slot `calloc` leaves: size 0 and no data. -/
def zero_slot : compressed_file := { size := 0, data := [] }

/-- One record of the archive for the bytes `data`: the size field, then the
bytes. -/
def record (big_endian : Bool) (data : List Nat) : List Nat :=
  int_bytes big_endian (data.length : Int) ++ data

/-- Byte-wise lexicographic order on names, strict: the first differing byte
decides, a proper initial segment comes first. -/
def lex_lt : CStr → CStr → Prop
  | [], [] => False
  | [], _ :: _ => True
  | _ :: _, [] => False
  | a :: as, b :: bs => a < b ∨ (a = b ∧ lex_lt as bs)

/-- The order `lex_lt` can be decided. -/
def lex_lt_decidable : ∀ a b : CStr, Decidable (lex_lt a b)
  | [], [] => isFalse (fun h => h)
  | [], _ :: _ => isTrue True.intro
  | _ :: _, [] => isFalse (fun h => h)
  | a :: as, b :: bs =>
    match lex_lt_decidable as bs with
    | isTrue h =>
      if hab : a ≤ b then
        isTrue (by
          rcases Nat.lt_or_ge a b with h1 | h1
          · exact Or.inl h1
          · exact Or.inr ⟨Nat.le_antisymm hab h1, h⟩)
      else isFalse (by
        rintro (h1 | ⟨h1, _⟩)
        · exact hab (Nat.le_of_lt h1)
        · exact hab (Nat.le_of_eq h1))
    | isFalse h =>
      if hab : a < b then isTrue (Or.inl hab)
      else isFalse (by
        rintro (h1 | ⟨_, h1⟩)
        · exact hab h1
        · exact h h1)

instance : DecidableRel lex_lt := lex_lt_decidable

/-- The archive in which the record of every name holds the compressed stream
of the whole content of the file. -/
def whole_content_archive (sys : Sys) (directory_name : CStr) (names : List CStr) :
    List Nat :=
  (names.map (fun name =>
    match sys.fopen_read (directory_name ++ cstr "/" ++ name) with
    | some content => record sys.big_endian (sys.deflate content)
    | none => [])).flatten

/-- The status a call returns, if it returns. -/
def Outcome.status : Outcome → Option Int
  | .returned status _ _ => some status
  | .aborted _ => none

/-- A directory `d` with the single text file `a.txt`, content `"A"`. -/
def sys_one : Sys :=
  { opendir := fun d => if d = cstr "d" then
      some [entry ".", entry "..", entry "a.txt"] else none,
    fopen_read := fun p => if p = cstr "d/a.txt" then some (cstr "A") else none,
    deflate := toy_deflate,
    fopen_write := true,
    big_endian := false }

/-- A directory `d` with three text files. -/
def sys_three : Sys :=
  { opendir := fun d => if d = cstr "d" then
      some [entry "c.txt", entry ".", entry "a.txt", entry "..", entry "b.txt"] else none,
    fopen_read := fun p =>
      if p = cstr "d/a.txt" then some (cstr "A")
      else if p = cstr "d/b.txt" then some (cstr "BB")
      else if p = cstr "d/c.txt" then some (cstr "CCC") else none,
    deflate := toy_deflate,
    fopen_write := true,
    big_endian := false }

/-- A directory `d` in which `a.txt` is one byte longer than `BUFFER_SIZE`;
the codec returns the length of its input modulo 256 as a single byte. -/
def sys_big : Sys :=
  { opendir := fun d => if d = cstr "d" then some [entry "b.txt", entry "a.txt"] else none,
    fopen_read := fun p =>
      if p = cstr "d/a.txt" then some (List.replicate (BUFFER_SIZE + 1) 65)
      else if p = cstr "d/b.txt" then some (cstr "BB") else none,
    deflate := fun input => [input.length % 256],
    fopen_write := true,
    big_endian := false }

/-- Worker arguments whose `end_index` lies beyond `num_files`. -/
def args_beyond : worker_args :=
  { num_files := 3, start_index := 1, end_index := 5, directory_name := cstr "d",
    files := [cstr "a.txt", cstr "b.txt", cstr "c.txt"],
    finished_files := [zero_slot, zero_slot, zero_slot] }

/-! ## The partition into slices -/

theorem thread_args_start (d : CStr) (files : List CStr) (n : Nat)
    (table : List compressed_file) (i : Nat) :
    (thread_args d files n table i).start_index = ((i * (n / 2) : Nat) : Int) := rfl

theorem thread_args_end (d : CStr) (files : List CStr) (n : Nat)
    (table : List compressed_file) (i : Nat) :
    (thread_args d files n table i).end_index = (((i + 1) * (n / 2) : Nat) : Int) := rfl

theorem thread_args_num (d : CStr) (files : List CStr) (n : Nat)
    (table : List compressed_file) (i : Nat) :
    (thread_args d files n table i).num_files = (n : Int) := rfl

theorem in_slice_thread_iff (d : CStr) (files : List CStr) (n : Nat)
    (table : List compressed_file) (i idx : Nat) :
    in_slice (thread_args d files n table i) (idx : Int) ↔
      i * (n / 2) ≤ idx ∧ idx < (i + 1) * (n / 2) := by
  unfold in_slice
  rw [thread_args_start, thread_args_end]
  constructor
  · rintro ⟨h1, h2⟩; exact ⟨by exact_mod_cast h1, by exact_mod_cast h2⟩
  · rintro ⟨h1, h2⟩; exact ⟨by exact_mod_cast h1, by exact_mod_cast h2⟩

theorem no_slice_iff (d : CStr) (files : List CStr) (n : Nat)
    (table : List compressed_file) (idx : Nat) :
    (∀ i, i < NUM_THREADS → ¬ in_slice (thread_args d files n table i) (idx : Int)) ↔
      NUM_THREADS * (n / NUM_THREADS) ≤ idx := by
  simp only [in_slice_thread_iff, NUM_THREADS]
  constructor
  · intro h
    have h0 := h 0 (by omega)
    have h1 := h 1 (by omega)
    omega
  · intro h i hi
    have : i = 0 ∨ i = 1 := by omega
    rcases this with rfl | rfl <;> omega

theorem filter_range_from (p : Nat → Bool) (N m : Nat) (hm : m ≤ N)
    (hp : ∀ idx, p idx = true ↔ m ≤ idx) :
    (List.range N).filter p = List.range' m (N - m) := by
  have hsplit : List.range N = List.range' 0 m ++ List.range' m (N - m) := by
    rw [List.range_eq_range']
    have := @List.range'_append 0 m (N - m) 1
    simp only [Nat.zero_add, Nat.one_mul] at this
    rw [this]; congr 1; omega
  rw [hsplit, List.filter_append]
  have h1 : (List.range' 0 m).filter p = [] := by
    rw [List.filter_eq_nil_iff]
    intro a ha
    rw [List.mem_range'_1] at ha
    rw [hp]; omega
  have h2 : (List.range' m (N - m)).filter p = List.range' m (N - m) := by
    rw [List.filter_eq_self]
    intro a ha
    rw [List.mem_range'_1] at ha
    rw [hp]; omega
  rw [h1, h2]; rfl

theorem unassigned_eq (d : CStr) (files : List CStr) (n : Nat)
    (table : List compressed_file) :
    unassigned d files n table =
      List.range' (NUM_THREADS * (n / NUM_THREADS)) (n % NUM_THREADS) := by
  have hle : NUM_THREADS * (n / NUM_THREADS) ≤ n := Nat.mul_div_le n NUM_THREADS
  have hsub : n - NUM_THREADS * (n / NUM_THREADS) = n % NUM_THREADS := by
    have := Nat.div_add_mod n NUM_THREADS
    omega
  unfold unassigned
  rw [filter_range_from _ n (NUM_THREADS * (n / NUM_THREADS)) hle, hsub]
  intro idx
  rw [decide_eq_true_iff]
  exact no_slice_iff d files n table idx

/-! ## The fuel of the loop is enough -/

/-- More fuel than `end_index - index` does not change what the loop does: the
`for` loop stops by its own condition before the fuel runs out. -/
theorem loop_fuel_enough (sys : Sys) (args : worker_args) :
    ∀ (fuel : Nat) (index : Int) (st : slice_state),
      (args.end_index - index).toNat ≤ fuel →
      compress_slice_loop sys args (fuel + 1) index st =
        compress_slice_loop sys args fuel index st := by
  intro fuel
  induction fuel with
  | zero =>
    intro index st h
    have h1 : ¬ index < args.end_index := by omega
    simp only [compress_slice_loop, if_neg h1]
  | succ fuel ih =>
    intro index st h
    rw [compress_slice_loop, compress_slice_loop.eq_def sys args (fuel + 1)]
    by_cases h1 : index < args.end_index
    · simp only [if_pos h1]
      by_cases h2 : index ≥ args.num_files
      · simp only [if_pos h2]
      · simp only [if_neg h2]
        rw [ih (index + 1) _ (by omega)]
    · simp only [if_neg h1]

/-! ## The worker touches only its own range -/

theorem body_events (sys : Sys) (args : worker_args) (index : Int) (st : slice_state)
    (ev : Event) (h : ev ∈ (compress_slice_body sys args index st).events) :
    ev ∈ st.events ∨ ev.index = index := by
  unfold compress_slice_body at h
  split at h
  · simp only [List.mem_append, List.mem_cons, List.mem_singleton,
      List.not_mem_nil, or_false] at h
    rcases h with h | h | h
    · exact Or.inl h
    · exact Or.inr (by rw [h]; rfl)
    · exact Or.inr (by rw [h]; rfl)
  · split at h
    · simp only [List.mem_append, List.mem_cons, List.mem_singleton,
        List.not_mem_nil, or_false] at h
      rcases h with h | h | h
      · exact Or.inl h
      · exact Or.inr (by rw [h]; rfl)
      · exact Or.inr (by rw [h]; rfl)
    · split at h
      all_goals
        simp only [List.mem_append, List.mem_cons, List.mem_singleton,
          List.not_mem_nil, or_false] at h
        rcases h with (h | h | h) | h
        · exact Or.inl h
        · exact Or.inr (by rw [h]; rfl)
        · exact Or.inr (by rw [h]; rfl)
        · exact Or.inr (by rw [h]; rfl)

theorem loop_events (sys : Sys) (args : worker_args) :
    ∀ (fuel : Nat) (index : Int) (st : slice_state) (ev : Event),
      ev ∈ (compress_slice_loop sys args fuel index st).events →
      ev ∈ st.events ∨
        (index ≤ ev.index ∧ ev.index < args.end_index ∧ ev.index < args.num_files) := by
  intro fuel
  induction fuel with
  | zero => intro index st ev h; exact Or.inl h
  | succ fuel ih =>
    intro index st ev h
    unfold compress_slice_loop at h
    by_cases h1 : index < args.end_index
    · rw [if_pos h1] at h
      by_cases h2 : index ≥ args.num_files
      · rw [if_pos h2] at h; exact Or.inl h
      · rw [if_neg h2] at h
        have hnum : index < args.num_files := by omega
        have hbody : ∀ e : Event, e ∈ (compress_slice_body sys args index st).events →
            e ∈ st.events ∨
              (index ≤ e.index ∧ e.index < args.end_index ∧ e.index < args.num_files) := by
          intro e he
          rcases body_events sys args index st e he with h3 | h3
          · exact Or.inl h3
          · exact Or.inr (by rw [h3]; exact ⟨le_refl _, h1, hnum⟩)
        simp only at h
        split at h
        · exact hbody ev h
        · rcases ih (index + 1) _ ev h with h3 | ⟨h4, h5, h6⟩
          · exact hbody ev h3
          · exact Or.inr ⟨by omega, h5, h6⟩
    · rw [if_neg h1] at h; exact Or.inl h

theorem compress_slice_events (sys : Sys) (args : worker_args) (ev : Event)
    (h : ev ∈ (compress_slice sys args).events) :
    args.start_index ≤ ev.index ∧ ev.index < args.end_index ∧ ev.index < args.num_files := by
  unfold compress_slice at h
  rcases loop_events sys args _ _ _ ev h with h | h
  · simp at h
  · exact h

/-! ## What a worker stores -/

theorem compress_file_ok (sys : Sys) (d name : CStr) (h : processable sys d name) :
    compress_file sys d name = .ok (slot_of sys d name) := by
  obtain ⟨content, h1, h2⟩ := h
  unfold compress_file slot_of stored
  simp only [h1]
  rw [if_pos h2]

theorem files_at_nat (files : List CStr) (k : Nat) : files_at files (k : Int) = files[k]? := by
  unfold files_at
  rw [if_pos (Int.ofNat_nonneg k), Int.toNat_ofNat]

theorem body_ok (sys : Sys) (args : worker_args) (k : Nat) (st : slice_state) (name : CStr)
    (hname : args.files[k]? = some name)
    (hproc : processable sys args.directory_name name)
    (hk : k < st.finished_files.length) :
    (compress_slice_body sys args (k : Int) st).fault = none ∧
    (compress_slice_body sys args (k : Int) st).finished_files =
      st.finished_files.set k (slot_of sys args.directory_name name) := by
  unfold compress_slice_body
  rw [files_at_nat, hname]
  simp only [compress_file_ok sys _ name hproc, Int.toNat_ofNat]
  rw [if_pos hk]
  exact ⟨rfl, rfl⟩

theorem loop_ok (sys : Sys) (args : worker_args) (b : Nat)
    (hend : args.end_index = (b : Int))
    (hnum : args.num_files = (args.files.length : Int))
    (hb : b ≤ args.files.length) :
    ∀ (fuel k : Nat) (st : slice_state), k + fuel = b →
      st.finished_files.length = args.files.length → st.fault = none →
      (∀ j name, k ≤ j → j < b → args.files[j]? = some name →
        processable sys args.directory_name name) →
      (compress_slice_loop sys args fuel (k : Int) st).fault = none ∧
      (compress_slice_loop sys args fuel (k : Int) st).finished_files.length =
        args.files.length ∧
      ∀ j, (compress_slice_loop sys args fuel (k : Int) st).finished_files[j]? =
        if k ≤ j ∧ j < b then (args.files[j]?).map (slot_of sys args.directory_name)
        else st.finished_files[j]? := by
  intro fuel
  induction fuel with
  | zero =>
    intro k st hk hlen hf _
    refine ⟨hf, hlen, fun j => ?_⟩
    rw [if_neg (by omega)]
    rfl
  | succ fuel ih =>
    intro k st hk hlen hf hproc
    have hkb : k < b := by omega
    have hkN : k < args.files.length := by omega
    obtain ⟨name, hname⟩ : ∃ name, args.files[k]? = some name :=
      ⟨args.files[k], List.getElem?_eq_getElem hkN⟩
    have hp := hproc k name (le_refl _) hkb hname
    have hbody := body_ok sys args k st name hname hp (by omega)
    unfold compress_slice_loop
    rw [if_pos (by rw [hend]; exact_mod_cast hkb), if_neg (by rw [hnum]; omega)]
    simp only [hbody.1]
    have hcast : ((k : Int) + 1) = ((k + 1 : Nat) : Int) := by push_cast; rfl
    rw [hcast]
    have hrec := ih (k + 1) (compress_slice_body sys args (k : Int) st) (by omega)
      (by rw [hbody.2, List.length_set]; exact hlen) hbody.1
      (fun j nm h1 h2 h3 => hproc j nm (by omega) h2 h3)
    refine ⟨hrec.1, hrec.2.1, fun j => ?_⟩
    rw [hrec.2.2 j, hbody.2]
    by_cases hj : k = j
    · subst hj
      rw [if_neg (by omega), if_pos ⟨le_refl _, hkb⟩, hname]
      simp [List.getElem?_set, hlen, hkN]
    · by_cases hj2 : k + 1 ≤ j ∧ j < b
      · rw [if_pos hj2, if_pos ⟨by omega, hj2.2⟩]
      · rw [if_neg hj2, if_neg (by omega)]
        simp [List.getElem?_set, hj]

theorem slice_ok (sys : Sys) (d : CStr) (files : List CStr)
    (table : List compressed_file) (i : Nat) (hi : i < NUM_THREADS)
    (hlen : table.length = files.length)
    (hproc : ∀ j name, i * (files.length / 2) ≤ j → j < (i + 1) * (files.length / 2) →
      files[j]? = some name → processable sys d name) :
    (compress_slice sys (thread_args d files files.length table i)).fault = none ∧
    (compress_slice sys (thread_args d files files.length table i)).finished_files.length =
      files.length ∧
    ∀ j, (compress_slice sys (thread_args d files files.length table i)).finished_files[j]? =
      if i * (files.length / 2) ≤ j ∧ j < (i + 1) * (files.length / 2)
      then (files[j]?).map (slot_of sys d) else table[j]? := by
  have hb : (i + 1) * (files.length / 2) ≤ files.length := by
    unfold NUM_THREADS at hi
    have : i = 0 ∨ i = 1 := by omega
    rcases this with rfl | rfl <;> omega
  have hfuel : ((thread_args d files files.length table i).end_index -
      (thread_args d files files.length table i).start_index).toNat = files.length / 2 := by
    rw [thread_args_start, thread_args_end]
    have : (((i + 1) * (files.length / 2) : Nat) : Int) - ((i * (files.length / 2) : Nat) : Int)
        = ((files.length / 2 : Nat) : Int) := by
      push_cast; ring
    rw [this, Int.toNat_ofNat]
  unfold compress_slice
  rw [hfuel, thread_args_start]
  exact loop_ok sys (thread_args d files files.length table i)
    ((i + 1) * (files.length / 2)) (thread_args_end d files files.length table i)
    (thread_args_num d files files.length table i) hb
    (files.length / 2) (i * (files.length / 2)) _ (by ring) hlen rfl hproc

theorem join_workers_ok (sys : Sys) (d : CStr) (files : List CStr)
    (hproc : ∀ name ∈ files.take (NUM_THREADS * (files.length / NUM_THREADS)),
      processable sys d name) :
    join_workers sys d files =
      ((files.take (NUM_THREADS * (files.length / NUM_THREADS))).map (slot_of sys d) ++
        List.replicate (files.length % NUM_THREADS) zero_slot, none) := by
  have hp : ∀ j name, j < 2 * (files.length / 2) → files[j]? = some name →
      processable sys d name := by
    intro j name hj hn
    apply hproc name
    unfold NUM_THREADS
    rw [List.mem_iff_getElem?]
    exact ⟨j, by rw [List.getElem?_take, if_pos hj]; exact hn⟩
  have h0 := slice_ok sys d files (List.replicate files.length { size := 0, data := [] }) 0
    (by unfold NUM_THREADS; omega) (by simp)
    (fun j name _ h2 h3 => hp j name (by omega) h3)
  have h1 := slice_ok sys d files
    (compress_slice sys (thread_args d files files.length
      (List.replicate files.length { size := 0, data := [] }) 0)).finished_files 1
    (by unfold NUM_THREADS; omega) h0.2.1
    (fun j name _ h2 h3 => hp j name (by omega) h3)
  unfold join_workers NUM_THREADS
  simp only [run_workers, h0.1, h1.1, Option.isSome_none, Bool.false_eq_true, if_false]
  congr 1
  apply List.ext_getElem?
  intro j
  rw [h1.2.2 j, h0.2.2 j]
  simp only [List.getElem?_append, List.length_map, List.length_take, List.getElem?_map,
    List.getElem?_take, List.getElem?_replicate, zero_slot]
  have hle : 2 * (files.length / 2) ≤ files.length := by omega
  simp only [min_eq_left hle]
  split_ifs <;> first | rfl | omega

/-! ## The writer loop -/

theorem write_archive_append (be : Bool) (xs ys : List compressed_file) :
    write_archive be (xs ++ ys) = write_archive be xs ++ write_archive be ys := by
  induction xs with
  | nil => rfl
  | cons f rest ih =>
    rw [List.cons_append]
    simp only [write_archive, ih, List.append_assoc]

theorem int_bytes_length (be : Bool) (v : Int) : (int_bytes be v).length = 4 := by
  unfold int_bytes
  cases be <;> simp

theorem int_bytes_zero (be : Bool) : int_bytes be 0 = [0, 0, 0, 0] := by
  cases be <;> decide

theorem write_archive_slots (sys : Sys) (d : CStr) (names : List CStr) :
    write_archive sys.big_endian (names.map (slot_of sys d)) =
      (names.map (fun name => record sys.big_endian (stored sys d name))).flatten := by
  induction names with
  | nil => rfl
  | cons name rest ih =>
    simp only [List.map_cons, write_archive, List.flatten_cons, ih, slot_of, record,
      Int.toNat_ofNat, List.take_length, List.append_assoc]

theorem write_archive_zero (be : Bool) (n : Nat) :
    write_archive be (List.replicate n zero_slot) =
      (List.replicate n [0, 0, 0, 0]).flatten := by
  induction n with
  | zero => rfl
  | succ n ih =>
    rw [List.replicate_succ]
    simp only [write_archive]
    rw [ih]
    simp [zero_slot, int_bytes_zero, List.replicate_succ]

/-! ## The whole run -/

theorem compress_directory_ok (sys : Sys) (d : CStr) (entries : List dirent)
    (hopen : sys.opendir d = some entries) (hw : sys.fopen_write = true)
    (hproc : ∀ name ∈ (qsort (read_files entries)).take
        (NUM_THREADS * ((qsort (read_files entries)).length / NUM_THREADS)),
      processable sys d name) :
    compress_directory sys d = .returned 0 [] (some
      ((((qsort (read_files entries)).take
          (NUM_THREADS * ((qsort (read_files entries)).length / NUM_THREADS))).map
          (fun name => record sys.big_endian (stored sys d name))).flatten ++
        (List.replicate ((qsort (read_files entries)).length % NUM_THREADS)
          [0, 0, 0, 0]).flatten)) := by
  unfold compress_directory
  simp only [hopen, hw, if_true]
  rw [join_workers_ok sys d _ hproc]
  simp only [write_archive_append, write_archive_slots, write_archive_zero]

/-! ## `cmp` and `qsort` -/

theorem strcmp_neg_iff : ∀ a b : CStr, strcmp a b < 0 ↔ lex_lt a b
  | [], [] => by simp [strcmp, lex_lt]
  | [], _ :: _ => by simp [strcmp, lex_lt]
  | _ :: _, [] => by simp [strcmp, lex_lt]
  | a :: as, b :: bs => by
    unfold strcmp lex_lt
    by_cases h : a = b
    · rw [if_pos h, strcmp_neg_iff as bs]
      constructor
      · intro h1; exact Or.inr ⟨h, h1⟩
      · rintro (h1 | ⟨_, h1⟩)
        · omega
        · exact h1
    · rw [if_neg h]
      constructor
      · intro h1; exact Or.inl (by omega)
      · rintro (h1 | ⟨h1, _⟩)
        · omega
        · exact absurd h1 h

theorem strcmp_pos_iff : ∀ a b : CStr, 0 < strcmp a b ↔ lex_lt b a
  | [], [] => by simp [strcmp, lex_lt]
  | [], _ :: _ => by simp [strcmp, lex_lt]
  | _ :: _, [] => by simp [strcmp, lex_lt]
  | a :: as, b :: bs => by
    unfold strcmp lex_lt
    by_cases h : a = b
    · rw [if_pos h, strcmp_pos_iff as bs]
      constructor
      · intro h1; exact Or.inr ⟨h.symm, h1⟩
      · rintro (h1 | ⟨_, h1⟩)
        · omega
        · exact h1
    · rw [if_neg h]
      constructor
      · intro h1; exact Or.inl (by omega)
      · rintro (h1 | ⟨h1, _⟩)
        · omega
        · exact absurd h1.symm h

theorem strcmp_zero_iff : ∀ a b : CStr, strcmp a b = 0 ↔ a = b
  | [], [] => by simp [strcmp]
  | [], _ :: _ => by simp [strcmp]
  | _ :: _, [] => by simp [strcmp]
  | a :: as, b :: bs => by
    unfold strcmp
    by_cases h : a = b
    · rw [if_pos h, strcmp_zero_iff as bs]; simp [h]
    · rw [if_neg h]
      constructor
      · intro h1; omega
      · intro h1; injection h1 with h2 _; exact absurd h2 h

theorem lex_lt_irrefl : ∀ a : CStr, ¬ lex_lt a a
  | [] => by simp [lex_lt]
  | a :: as => by
    unfold lex_lt
    rintro (h | ⟨_, h⟩)
    · omega
    · exact lex_lt_irrefl as h

theorem lex_lt_trans : ∀ a b c : CStr, lex_lt a b → lex_lt b c → lex_lt a c
  | [], [], _ => by simp [lex_lt]
  | [], _ :: _, [] => by simp [lex_lt]
  | [], _ :: _, _ :: _ => by simp [lex_lt]
  | _ :: _, [], _ => by simp [lex_lt]
  | _ :: _, _ :: _, [] => by simp [lex_lt]
  | a :: as, b :: bs, c :: cs => by
    unfold lex_lt
    rintro (h1 | ⟨h1, h1'⟩) (h2 | ⟨h2, h2'⟩)
    · exact Or.inl (by omega)
    · exact Or.inl (by omega)
    · exact Or.inl (by omega)
    · exact Or.inr ⟨by omega, lex_lt_trans as bs cs h1' h2'⟩

theorem cmp_le_iff (a b : CStr) : cmp a b ≤ 0 ↔ (lex_lt a b ∨ a = b) := by
  unfold cmp
  rw [← strcmp_neg_iff, ← strcmp_zero_iff]
  omega

theorem cmp_total (a b : CStr) : cmp a b ≤ 0 ∨ cmp b a ≤ 0 := by
  by_cases h : cmp a b ≤ 0
  · exact Or.inl h
  · right
    have h1 : 0 < strcmp a b := by unfold cmp at h; omega
    rw [strcmp_pos_iff] at h1
    rw [cmp_le_iff]; exact Or.inl h1

theorem cmp_trans (a b c : CStr) : cmp a b ≤ 0 → cmp b c ≤ 0 → cmp a c ≤ 0 := by
  simp only [cmp_le_iff]
  rintro (h1 | h1) (h2 | h2)
  · exact Or.inl (lex_lt_trans a b c h1 h2)
  · subst h2; exact Or.inl h1
  · subst h1; exact Or.inl h2
  · subst h1; exact Or.inr h2

theorem cmp_antisymm (a b : CStr) : cmp a b ≤ 0 → cmp b a ≤ 0 → a = b := by
  simp only [cmp_le_iff]
  rintro (h1 | h1) (h2 | h2)
  · exact absurd (lex_lt_trans a b a h1 h2) (lex_lt_irrefl a)
  · exact h2.symm
  · exact h1
  · exact h1

theorem qsort_perm (l : List CStr) : (qsort l).Perm l := List.perm_insertionSort _ l

theorem qsort_cmp_sorted (l : List CStr) : (qsort l).Pairwise (fun a b => cmp a b ≤ 0) := by
  haveI : IsTotal CStr (fun a b => cmp a b ≤ 0) := ⟨cmp_total⟩
  haveI : IsTrans CStr (fun a b => cmp a b ≤ 0) := ⟨cmp_trans⟩
  exact List.sorted_insertionSort (fun a b => cmp a b ≤ 0) l

theorem qsort_sorted (l : List CStr) :
    (qsort l).Pairwise (fun a b => lex_lt a b ∨ a = b) :=
  (qsort_cmp_sorted l).imp (fun {a b} hab => (cmp_le_iff a b).1 hab)

theorem qsort_eq_of_sorted (l fs : List CStr) (hperm : fs.Perm l)
    (hsorted : fs.Pairwise lex_lt) : qsort l = fs := by
  haveI : IsAntisymm CStr (fun a b => cmp a b ≤ 0) := ⟨cmp_antisymm⟩
  have h2 : fs.Pairwise (fun a b => cmp a b ≤ 0) :=
    hsorted.imp (fun {a b} hab => (cmp_le_iff a b).2 (Or.inl hab))
  exact List.eq_of_perm_of_sorted ((qsort_perm l).trans hperm.symm) (qsort_cmp_sorted l) h2

/-! ## The `".txt"` test -/

theorem last_four (l : List Nat) (h : 4 ≤ l.length) :
    ∃ pre a b c e, l = pre ++ [a, b, c, e] := by
  refine ⟨l.take (l.length - 4), l[l.length - 4], l[l.length - 3], l[l.length - 2],
    l[l.length - 1], ?_⟩
  apply List.ext_getElem
  · simp; omega
  · intro i h1 h2
    rw [List.getElem_append]
    split
    · rw [List.getElem_take]
    · rename_i h3
      simp at h3
      have h4 : min (l.length - 4) l.length = l.length - 4 := by omega
      have : i = l.length - 4 ∨ i = l.length - 3 ∨ i = l.length - 2 ∨ i = l.length - 1 := by
        omega
      rcases this with rfl | rfl | rfl | rfl
      · simp [h4]
      · have : l.length - 3 - (l.length - 4) = 1 := by omega
        simp [h4, this]
      · have : l.length - 2 - (l.length - 4) = 2 := by omega
        simp [h4, this]
      · have : l.length - 1 - (l.length - 4) = 3 := by omega
        simp [h4, this]

theorem char_at_tail (pre : List Nat) (a b c e : Nat) (bf : Nat → Nat) (k : Nat)
    (hk : k < 4) :
    dirent.char_at ⟨pre ++ [a, b, c, e], bf⟩
        (((pre ++ [a, b, c, e]).length : Int) - 4 + (k : Int)) = [a, b, c, e].getD k 0 := by
  unfold dirent.char_at
  have h1 : (0 : Int) ≤ ((pre ++ [a, b, c, e]).length : Int) - 4 + (k : Int) := by
    simp; omega
  have h2 : (((pre ++ [a, b, c, e]).length : Int) - 4 + (k : Int)).toNat = pre.length + k := by
    simp; omega
  rw [if_pos h1, h2]
  simp [List.getD_eq_getElem?_getD, List.getElem?_append_right]

theorem suffix_check_iff (e : dirent) (h : 4 ≤ e.d_name.length) :
    (suffix_check e).2 = true ↔ cstr ".txt" <:+ e.d_name := by
  obtain ⟨name, bf⟩ := e
  obtain ⟨pre, a, b, c, x, rfl⟩ := last_four name h
  have h0 := char_at_tail pre a b c x bf 0 (by omega)
  have h1 := char_at_tail pre a b c x bf 1 (by omega)
  have h2 := char_at_tail pre a b c x bf 2 (by omega)
  have h3 := char_at_tail pre a b c x bf 3 (by omega)
  have e1 : ∀ n : Int, n - 4 + ((1 : Nat) : Int) = n - 3 := by intro n; push_cast; ring
  have e2 : ∀ n : Int, n - 4 + ((2 : Nat) : Int) = n - 2 := by intro n; push_cast; ring
  have e3 : ∀ n : Int, n - 4 + ((3 : Nat) : Int) = n - 1 := by intro n; push_cast; ring
  have e0 : ∀ n : Int, n - 4 + ((0 : Nat) : Int) = n - 4 := by intro n; push_cast; ring
  rw [e0] at h0; rw [e1] at h1; rw [e2] at h2; rw [e3] at h3
  have hs : cstr ".txt" = [46, 116, 120, 116] := by decide
  rw [hs]
  have hsuf : [46, 116, 120, 116] <:+ pre ++ [a, b, c, x] ↔
      (a = 46 ∧ b = 116 ∧ c = 120 ∧ x = 116) := by
    constructor
    · rintro ⟨t, ht⟩
      have hl : t.length = pre.length := by
        have := congrArg List.length ht
        simp at this; omega
      have := List.append_inj ht hl
      have h5 := this.2
      simp at h5
      omega
    · rintro ⟨rfl, rfl, rfl, rfl⟩
      exact ⟨pre, rfl⟩
  rw [hsuf]
  unfold suffix_check
  simp only [h0, h1, h2, h3]
  simp only [List.getD_cons_zero, List.getD_cons_succ]
  by_cases ha : a = 46 <;> by_cases hb : b = 116 <;> by_cases hc : c = 120 <;>
    by_cases hx : x = 116 <;> simp [ha, hb, hc, hx]
theorem suffix_check_short (e : dirent) (h0 : e.d_name ≠ []) (h4 : e.d_name.length < 4)
    (hb0 : e.before 0 ≠ 46) (hb1 : e.before 1 ≠ 46) (hb2 : e.before 2 ≠ 46) :
    (suffix_check e).2 = false := by
  have hpos : 0 < e.d_name.length := List.length_pos.2 h0
  have hfirst : e.char_at ((e.d_name.length : Int) - 4) ≠ 46 := by
    unfold dirent.char_at
    rw [if_neg (by omega)]
    have hcases : e.d_name.length = 1 ∨ e.d_name.length = 2 ∨ e.d_name.length = 3 := by
      omega
    rcases hcases with hl | hl | hl
    · rw [hl]; exact hb2
    · rw [hl]; exact hb1
    · rw [hl]; exact hb0
  unfold suffix_check
  simp only [if_pos hfirst]

theorem suffix_check_iff_of_sound (e : dirent) (h0 : e.d_name ≠ [])
    (hb0 : e.before 0 ≠ 46) (hb1 : e.before 1 ≠ 46) (hb2 : e.before 2 ≠ 46) :
    (suffix_check e).2 = true ↔ cstr ".txt" <:+ e.d_name := by
  by_cases h4 : 4 ≤ e.d_name.length
  · exact suffix_check_iff e h4
  · have hfalse := suffix_check_short e h0 (by omega) hb0 hb1 hb2
    constructor
    · intro h; rw [hfalse] at h; exact absurd h (by simp)
    · intro hs
      have hlen := hs.length_le
      have hfour : (cstr ".txt").length = 4 := by decide
      omega

theorem read_files_eq_filter (entries : List dirent)
    (h : ∀ e ∈ entries, ((suffix_check e).2 = true ↔ cstr ".txt" <:+ e.d_name)) :
    read_files entries =
      (entries.map (fun e => e.d_name)).filter (fun name => decide (cstr ".txt" <:+ name)) := by
  induction entries with
  | nil => rfl
  | cons e rest ih =>
    have he := h e (List.mem_cons_self e rest)
    have ih1 := ih (fun x hx => h x (List.mem_cons_of_mem e hx))
    unfold read_files
    rw [List.map_cons, List.filter_cons]
    by_cases hc : (suffix_check e).2 = true
    · rw [if_pos hc, if_pos (decide_eq_true (he.1 hc)), ih1]
    · have hn : ¬ cstr ".txt" <:+ e.d_name := fun hs => hc (he.2 hs)
      rw [if_neg hc, if_neg (by simpa using hn), ih1]

/-- The order in which the two threads run does not matter: thread 1 before
thread 0 leaves the table that thread 0 before thread 1 leaves. -/
theorem thread_order_irrelevant (sys : Sys) (d : CStr) (files : List CStr)
    (hproc : ∀ name ∈ files.take (NUM_THREADS * (files.length / NUM_THREADS)),
      processable sys d name) :
    (compress_slice sys (thread_args d files files.length
      (compress_slice sys (thread_args d files files.length
        (List.replicate files.length zero_slot) 1)).finished_files 0)).finished_files =
      (join_workers sys d files).1 := by
  have hp : ∀ j name, j < 2 * (files.length / 2) → files[j]? = some name →
      processable sys d name := by
    intro j name hj hn
    apply hproc name
    unfold NUM_THREADS
    rw [List.mem_iff_getElem?]
    exact ⟨j, by rw [List.getElem?_take, if_pos hj]; exact hn⟩
  have h1 := slice_ok sys d files (List.replicate files.length zero_slot) 1
    (by unfold NUM_THREADS; omega) (by simp)
    (fun j name _ h2 h3 => hp j name (by omega) h3)
  have h0 := slice_ok sys d files
    (compress_slice sys (thread_args d files files.length
      (List.replicate files.length zero_slot) 1)).finished_files 0
    (by unfold NUM_THREADS; omega) h1.2.1
    (fun j name _ h2 h3 => hp j name (by omega) h3)
  rw [join_workers_ok sys d files hproc]
  apply List.ext_getElem?
  intro j
  rw [h0.2.2 j, h1.2.2 j]
  simp only [NUM_THREADS, List.getElem?_append, List.length_map, List.length_take,
    List.getElem?_map, List.getElem?_take, List.getElem?_replicate]
  have hle : 2 * (files.length / 2) ≤ files.length := by omega
  simp only [min_eq_left hle]
  split_ifs <;> first | rfl | omega

/-- The four bytes of a size below `2^31` are base-256 digits of the size,
least significant first on a little-endian machine. -/
theorem int_bytes_digits (v : Int) (h0 : 0 ≤ v) (h1 : v < 2147483648) :
    ∃ b0 b1 b2 b3 : Nat, int_bytes false v = [b0, b1, b2, b3] ∧
      int_bytes true v = [b3, b2, b1, b0] ∧
      b0 < 256 ∧ b1 < 256 ∧ b2 < 256 ∧ b3 < 256 ∧
      ((b0 + 256 * b1 + 65536 * b2 + 16777216 * b3 : Nat) : Int) = v := by
  refine ⟨_, _, _, _, rfl, rfl, ?_, ?_, ?_, ?_, ?_⟩
  · omega
  · omega
  · omega
  · omega
  · have hv : (v % 4294967296).toNat = v.toNat := by omega
    rw [hv]
    have : ((v.toNat : Nat) : Int) = v := Int.toNat_of_nonneg h0
    omega

/-! ## The claims -/

/-- C1, at the directory that holds the single file `a.txt`: with one file
both slices are `[0, 0)`, so index 0 lies in the range of no thread, no worker
reads or writes any index, and the archive is one empty record instead of the
record of the compressed `"A"`. -/
theorem single_file_is_skipped :
    (∀ i, i < NUM_THREADS →
      ¬ in_slice (thread_args (cstr "d") [cstr "a.txt"] 1 [zero_slot] i) 0) ∧
    (∀ i, i < NUM_THREADS →
      (compress_slice sys_one (thread_args (cstr "d") [cstr "a.txt"] 1 [zero_slot] i)).events
        = []) ∧
    compress_directory sys_one (cstr "d") = .returned 0 [] (some [0, 0, 0, 0]) ∧
    record false (sys_one.deflate (cstr "A")) = [2, 0, 0, 0, 1, 65] := by
  decide

/-- C2, as stated, fails on a file longer than `BUFFER_SIZE`: in the directory
of `sys_big` the sorted names are `a.txt`, `b.txt`, the file `a.txt` has
`BUFFER_SIZE + 1` bytes, and the first record of the archive holds the
compressed stream of its first `BUFFER_SIZE` bytes (`[0]` for this codec), not
of its whole content (`[1]`). -/
theorem long_file_is_cut :
    qsort (read_files [entry "b.txt", entry "a.txt"]) = [cstr "a.txt", cstr "b.txt"] ∧
    compress_directory sys_big (cstr "d") =
      .returned 0 [] (some [1, 0, 0, 0, 0, 1, 0, 0, 0, 2]) ∧
    whole_content_archive sys_big (cstr "d") [cstr "a.txt", cstr "b.txt"] =
      [1, 0, 0, 0, 1, 1, 0, 0, 0, 2] ∧
    compress_directory sys_big (cstr "d") ≠
      .returned 0 [] (some (whole_content_archive sys_big (cstr "d")
        [cstr "a.txt", cstr "b.txt"])) := by
  have hq : qsort (read_files [entry "b.txt", entry "a.txt"]) =
      [cstr "a.txt", cstr "b.txt"] := by decide
  have ha : sys_big.fopen_read (cstr "d" ++ cstr "/" ++ cstr "a.txt") =
      some (List.replicate (BUFFER_SIZE + 1) 65) := rfl
  have hb : sys_big.fopen_read (cstr "d" ++ cstr "/" ++ cstr "b.txt") = some (cstr "BB") := rfl
  have hdef : ∀ input, sys_big.deflate input = [input.length % 256] := fun _ => rfl
  have hbe : sys_big.big_endian = false := rfl
  have hsa : stored sys_big (cstr "d") (cstr "a.txt") = [0] := by
    unfold stored
    rw [ha]
    simp only [hdef, List.length_take, List.length_replicate]
    decide
  have hsb : stored sys_big (cstr "d") (cstr "b.txt") = [2] := by
    unfold stored
    rw [hb]
    decide
  have hrun : compress_directory sys_big (cstr "d") =
      .returned 0 [] (some [1, 0, 0, 0, 0, 1, 0, 0, 0, 2]) := by
    rw [compress_directory_ok sys_big (cstr "d") [entry "b.txt", entry "a.txt"] rfl rfl]
    · rw [hq]
      simp only [NUM_THREADS, List.length_cons, List.length_nil, List.take, List.map_cons,
        List.map_nil, hsa, hsb, hbe]
      decide
    · intro name hname
      rw [hq] at hname
      simp only [NUM_THREADS, List.length_cons, List.length_nil, List.take, List.mem_cons,
        List.not_mem_nil, or_false] at hname
      rcases hname with rfl | rfl
      · exact ⟨_, ha, by rw [hdef]; decide⟩
      · exact ⟨_, hb, by rw [hdef]; decide⟩
  have hwhole : whole_content_archive sys_big (cstr "d") [cstr "a.txt", cstr "b.txt"] =
      [1, 0, 0, 0, 1, 1, 0, 0, 0, 2] := by
    unfold whole_content_archive
    simp only [List.map_cons, List.map_nil, ha, hb, hdef, hbe, List.length_replicate]
    decide
  refine ⟨hq, hrun, hwhole, ?_⟩
  rw [hrun, hwhole]
  decide

/-- C2, amended: when the number of matching names is a multiple of
`NUM_THREADS`, every matching file can be opened and its compressed stream fits
in `BUFFER_SIZE` bytes, the archive is the sequence of the records of the
names in ascending order, the record of a name holding the size and the bytes
of the compressed stream of the first `BUFFER_SIZE` bytes of the file. -/
theorem archive_of_sorted_names (sys : Sys) (d : CStr) (entries : List dirent)
    (fs : List CStr) (content : CStr → List Nat)
    (hopen : sys.opendir d = some entries) (hw : sys.fopen_write = true)
    (hperm : fs.Perm (read_files entries)) (hsorted : fs.Pairwise lex_lt)
    (hdiv : fs.length % NUM_THREADS = 0)
    (hread : ∀ name ∈ fs, sys.fopen_read (d ++ cstr "/" ++ name) = some (content name))
    (hfit : ∀ name ∈ fs,
      (sys.deflate ((content name).take BUFFER_SIZE)).length ≤ BUFFER_SIZE) :
    compress_directory sys d = .returned 0 [] (some
      ((fs.map (fun name =>
        record sys.big_endian (sys.deflate ((content name).take BUFFER_SIZE)))).flatten)) := by
  have hq : qsort (read_files entries) = fs := qsort_eq_of_sorted _ fs hperm hsorted
  have hall : NUM_THREADS * (fs.length / NUM_THREADS) = fs.length := by
    unfold NUM_THREADS at hdiv ⊢; omega
  rw [compress_directory_ok sys d entries hopen hw]
  · rw [hq, hall, hdiv, List.take_length]
    simp only [List.replicate_zero, List.flatten_nil, List.append_nil]
    have hmap : fs.map (fun name => record sys.big_endian (stored sys d name)) =
        fs.map (fun name =>
          record sys.big_endian (sys.deflate ((content name).take BUFFER_SIZE))) := by
      apply List.map_congr_left
      intro name hname
      unfold stored
      rw [hread name hname]
    rw [hmap]
  · rw [hq, hall, List.take_length]
    intro name hname
    exact ⟨content name, hread name hname, hfit name hname⟩

theorem archive_of_sorted_names_witness :
    sys_ab.opendir (cstr "d") =
      some [entry ".", entry "..", entry "b.txt", entry "a.txt", entry "notes.md"] ∧
    [cstr "a.txt", cstr "b.txt"].Perm
      (read_files [entry ".", entry "..", entry "b.txt", entry "a.txt", entry "notes.md"]) ∧
    [cstr "a.txt", cstr "b.txt"].Pairwise lex_lt ∧
    compress_directory sys_ab (cstr "d") = .returned 0 [] (some
      (record false (toy_deflate (cstr "A")) ++ record false (toy_deflate (cstr "BB")))) := by
  have hperm : [cstr "a.txt", cstr "b.txt"].Perm
      (read_files [entry ".", entry "..", entry "b.txt", entry "a.txt", entry "notes.md"]) := by
    have : read_files [entry ".", entry "..", entry "b.txt", entry "a.txt", entry "notes.md"]
        = [cstr "b.txt", cstr "a.txt"] := by decide
    rw [this]
    exact List.Perm.swap _ _ _
  have hsorted : [cstr "a.txt", cstr "b.txt"].Pairwise lex_lt := by decide
  refine ⟨rfl, hperm, hsorted, ?_⟩
  have h := archive_of_sorted_names sys_ab (cstr "d")
    [entry ".", entry "..", entry "b.txt", entry "a.txt", entry "notes.md"]
    [cstr "a.txt", cstr "b.txt"]
    (fun name => if name = cstr "a.txt" then cstr "A" else cstr "BB")
    rfl rfl hperm hsorted (by decide) (by decide) (by decide)
  rw [h]
  decide

/-- C3: for any file count and two different threads, no index lies in both
ranges, and no slot of `finished_files` is written by both workers. -/
theorem slices_disjoint (sys : Sys) (d : CStr) (files : List CStr) (n : Nat)
    (table_i table_j : List compressed_file) (i j : Nat)
    (hi : i < NUM_THREADS) (hj : j < NUM_THREADS) (hij : i ≠ j) (idx : Int) :
    ¬ (in_slice (thread_args d files n table_i i) idx ∧
        in_slice (thread_args d files n table_j j) idx) ∧
    ¬ (Event.write_finished idx ∈
          (compress_slice sys (thread_args d files n table_i i)).events ∧
        Event.write_finished idx ∈
          (compress_slice sys (thread_args d files n table_j j)).events) := by
  have key : ¬ (in_slice (thread_args d files n table_i i) idx ∧
      in_slice (thread_args d files n table_j j) idx) := by
    unfold in_slice
    rw [thread_args_start, thread_args_end, thread_args_start, thread_args_end]
    unfold NUM_THREADS at hi hj
    have h1 : i = 0 ∨ i = 1 := by omega
    have h2 : j = 0 ∨ j = 1 := by omega
    rcases h1 with rfl | rfl <;> rcases h2 with rfl | rfl <;> push_cast <;> omega
  refine ⟨key, ?_⟩
  rintro ⟨h1, h2⟩
  have e1 := compress_slice_events sys _ _ h1
  have e2 := compress_slice_events sys _ _ h2
  exact key ⟨⟨e1.1, e1.2.1⟩, ⟨e2.1, e2.2.1⟩⟩

theorem slices_disjoint_witness :
    0 < NUM_THREADS ∧ 1 < NUM_THREADS ∧ 0 ≠ 1 ∧
    Event.write_finished 0 ∈ (compress_slice sys_ab
      (thread_args (cstr "d") [cstr "a.txt", cstr "b.txt"] 2 [zero_slot, zero_slot] 0)).events ∧
    ¬ (in_slice (thread_args (cstr "d") [cstr "a.txt", cstr "b.txt"] 2
          [zero_slot, zero_slot] 0) 0 ∧
        in_slice (thread_args (cstr "d") [cstr "a.txt", cstr "b.txt"] 2
          [zero_slot, zero_slot] 1) 0) ∧
    ¬ (Event.write_finished 0 ∈ (compress_slice sys_ab
          (thread_args (cstr "d") [cstr "a.txt", cstr "b.txt"] 2
            [zero_slot, zero_slot] 0)).events ∧
        Event.write_finished 0 ∈ (compress_slice sys_ab
          (thread_args (cstr "d") [cstr "a.txt", cstr "b.txt"] 2
            [zero_slot, zero_slot] 1)).events) :=
  ⟨by decide, by decide, by decide, by decide,
    slices_disjoint sys_ab (cstr "d") [cstr "a.txt", cstr "b.txt"] 2
      [zero_slot, zero_slot] [zero_slot, zero_slot] 0 1 (by decide) (by decide) (by decide) 0⟩

/-- C4, as stated, fails: the call on a directory that cannot be opened
returns status 0, the same status as the call that writes the archive. -/
theorem open_failure_returns_zero :
    sys_ab.opendir (cstr "missing") = none ∧
    compress_directory sys_ab (cstr "missing") =
      .returned 0 ["An error has occurred\n"] none ∧
    compress_directory sys_ab (cstr "d") =
      .returned 0 [] (some [2, 0, 0, 0, 1, 65, 3, 0, 0, 0, 2, 66, 66]) ∧
    ¬ ((compress_directory sys_ab (cstr "missing")).status ≠
        (compress_directory sys_ab (cstr "d")).status) := by
  refine ⟨rfl, rfl, by decide, ?_⟩
  intro h
  exact h (by decide)

/-- C4, amended: when the directory cannot be opened `compress_directory`
prints the error line, creates no archive and returns status 0; when it can be
opened the call is either aborted by a failed assertion or returns the same
status 0 after the archive has been written. -/
theorem status_is_always_zero (sys : Sys) (d : CStr) :
    (sys.opendir d = none ∧
      compress_directory sys d = .returned 0 ["An error has occurred\n"] none) ∨
    (sys.opendir d ≠ none ∧
      ((∃ fault, compress_directory sys d = .aborted fault) ∨
        ∃ archive, compress_directory sys d = .returned 0 [] (some archive))) := by
  unfold compress_directory
  cases hopen : sys.opendir d with
  | none => exact Or.inl ⟨rfl, rfl⟩
  | some entries =>
    refine Or.inr ⟨by simp, ?_⟩
    simp only
    cases hw : sys.fopen_write with
    | false => exact Or.inl ⟨_, rfl⟩
    | true =>
      simp only [if_true]
      rcases hj : join_workers sys d (qsort (read_files entries)) with ⟨table, fault⟩
      cases fault with
      | none => exact Or.inr ⟨_, rfl⟩
      | some f => exact Or.inl ⟨_, rfl⟩

/-- C5, at the entries `"."` and `".."` that every directory holds: the test
reads `d_name[-3]` for `"."` and `d_name[-2]` for `".."`, positions in front of
the name and outside `[0, len)`. -/
theorem dot_entries_read_outside_name :
    (suffix_check (entry ".")).1 = [-3] ∧
    ¬ ((0 : Int) ≤ -3 ∧ (-3 : Int) < (((entry ".").d_name.length : Nat) : Int)) ∧
    (suffix_check (entry "..")).1 = [-2] ∧
    ¬ ((0 : Int) ≤ -2 ∧ (-2 : Int) < (((entry "..").d_name.length : Nat) : Int)) := by
  decide

/-- Every name shorter than 4 bytes makes the test read in front of the name:
the first position it reads is `len - 4 < 0`. -/
theorem short_name_read_outside (e : dirent) (h : e.d_name.length < 4) :
    ((e.d_name.length : Int) - 4) ∈ (suffix_check e).1 ∧ (e.d_name.length : Int) - 4 < 0 := by
  refine ⟨?_, by omega⟩
  unfold suffix_check
  simp only
  split_ifs <;> simp

/-- C6: for every list of entries as `readdir` returns them (a name that is
not empty, and none of the three bytes stored in front of it, `d_type` and
`d_reclen` on Linux, equal to `'.'`), the file list built by the scan is the
list of the names that end in `".txt"`, each as often as it occurs and in
directory order, and after `qsort` with `cmp` it is a rearrangement of that
list in ascending byte-wise lexicographic order. -/
theorem file_list_is_sorted_txt_names (entries : List dirent)
    (h : ∀ e ∈ entries,
      e.d_name ≠ [] ∧ e.before 0 ≠ 46 ∧ e.before 1 ≠ 46 ∧ e.before 2 ≠ 46) :
    read_files entries =
      (entries.map (fun e => e.d_name)).filter (fun name => decide (cstr ".txt" <:+ name)) ∧
    (qsort (read_files entries)).Perm
      ((entries.map (fun e => e.d_name)).filter (fun name => decide (cstr ".txt" <:+ name))) ∧
    (qsort (read_files entries)).Pairwise (fun a b => lex_lt a b ∨ a = b) := by
  have hfilter := read_files_eq_filter entries
    (fun e he => suffix_check_iff_of_sound e (h e he).1 (h e he).2.1 (h e he).2.2.1
      (h e he).2.2.2)
  refine ⟨hfilter, ?_, qsort_sorted _⟩
  rw [← hfilter]
  exact qsort_perm _

theorem file_list_is_sorted_txt_names_witness :
    (∀ e ∈ [entry ".", entry "..", entry "b.txt", entry "a.txt", entry "notes.md"],
      e.d_name ≠ [] ∧ e.before 0 ≠ 46 ∧ e.before 1 ≠ 46 ∧ e.before 2 ≠ 46) ∧
    read_files [entry ".", entry "..", entry "b.txt", entry "a.txt", entry "notes.md"] =
      [cstr "b.txt", cstr "a.txt"] ∧
    qsort (read_files [entry ".", entry "..", entry "b.txt", entry "a.txt", entry "notes.md"]) =
      [cstr "a.txt", cstr "b.txt"] ∧
    (qsort (read_files
        [entry ".", entry "..", entry "b.txt", entry "a.txt", entry "notes.md"])).Pairwise
      (fun a b => lex_lt a b ∨ a = b) :=
  ⟨by decide, by decide, by decide,
    (file_list_is_sorted_txt_names
      [entry ".", entry "..", entry "b.txt", entry "a.txt", entry "notes.md"]
      (by decide)).2.2⟩

/-- C7: for a table in which every slot has `data` of length `size`, the bytes
written are the concatenation, slot after slot in index order, of the 4 bytes
of `size` and the `size` bytes of `data`; their number is 4 for each slot plus
the sum of the sizes. -/
theorem write_archive_layout (be : Bool) (table : List compressed_file)
    (h : ∀ f ∈ table, f.size = (f.data.length : Int)) :
    write_archive be table =
      (table.map (fun f => int_bytes be f.size ++ f.data)).flatten ∧
    (∀ f ∈ table, (int_bytes be f.size).length = 4) ∧
    (table.map (fun f => int_bytes be f.size ++ f.data)).length = table.length ∧
    ((write_archive be table).length : Int) =
      4 * (table.length : Int) + (table.map (fun f => f.size)).sum := by
  refine ⟨?_, fun f _ => int_bytes_length be f.size, by simp, ?_⟩
  · induction table with
    | nil => rfl
    | cons f rest ih =>
      have hf := h f (List.mem_cons_self f rest)
      have ih1 := ih (fun x hx => h x (List.mem_cons_of_mem f hx))
      simp only [write_archive, List.map_cons, List.flatten_cons, ih1, hf, Int.toNat_ofNat,
        List.take_length, List.append_assoc]
  · induction table with
    | nil => rfl
    | cons f rest ih =>
      have hf := h f (List.mem_cons_self f rest)
      have ih1 := ih (fun x hx => h x (List.mem_cons_of_mem f hx))
      simp only [write_archive, List.length_append, int_bytes_length, List.length_cons,
        List.map_cons, List.sum_cons, hf, Int.toNat_ofNat, List.take_length]
      push_cast
      rw [ih1]
      ring

theorem write_archive_layout_witness :
    (∀ f ∈ [({ size := 1, data := [65] } : compressed_file), { size := 2, data := [66, 66] }],
      f.size = (f.data.length : Int)) ∧
    write_archive false [{ size := 1, data := [65] }, { size := 2, data := [66, 66] }] =
      [1, 0, 0, 0, 65, 2, 0, 0, 0, 66, 66] ∧
    ((write_archive false
        [{ size := 1, data := [65] }, { size := 2, data := [66, 66] }]).length : Int) =
      4 * 2 + (1 + 2) := by
  have h := write_archive_layout false
    [{ size := 1, data := [65] }, { size := 2, data := [66, 66] }] (by decide)
  refine ⟨by decide, ?_, ?_⟩
  · rw [h.1]; decide
  · rw [h.2.2.2]; decide

/-- C8: the indices of `[0, N)` in the range of no thread are the trailing
indices from `NUM_THREADS * (N / NUM_THREADS)` on; there are `N % NUM_THREADS`
of them, at most `NUM_THREADS - 1`, and none exactly when `NUM_THREADS`
divides `N`. -/
theorem unassigned_indices (d : CStr) (files : List CStr) (n : Nat)
    (table : List compressed_file) :
    unassigned d files n table =
      List.range' (NUM_THREADS * (n / NUM_THREADS)) (n % NUM_THREADS) ∧
    (unassigned d files n table).length = n % NUM_THREADS ∧
    n % NUM_THREADS ≤ NUM_THREADS - 1 ∧
    (n % NUM_THREADS = 0 ↔ NUM_THREADS ∣ n) := by
  refine ⟨unassigned_eq d files n table, ?_, ?_, ?_⟩
  · rw [unassigned_eq, List.length_range']
  · unfold NUM_THREADS; omega
  · unfold NUM_THREADS; omega

/-- C9: with `start_index ≥ 0`, every index at which `compress_slice` reads
`files` or writes `finished_files` lies in
`[start_index, min end_index num_files)`, hence in `[0, num_files)`. -/
theorem compress_slice_accesses_in_range (sys : Sys) (args : worker_args)
    (hstart : 0 ≤ args.start_index) (idx : Int)
    (h : Event.read_files idx ∈ (compress_slice sys args).events ∨
      Event.write_finished idx ∈ (compress_slice sys args).events) :
    args.start_index ≤ idx ∧ idx < min args.end_index args.num_files ∧
      0 ≤ idx ∧ idx < args.num_files := by
  have key : args.start_index ≤ idx ∧ idx < args.end_index ∧ idx < args.num_files := by
    rcases h with h | h
    · exact compress_slice_events sys args _ h
    · exact compress_slice_events sys args _ h
  refine ⟨key.1, ?_, ?_, key.2.2⟩
  · exact lt_min key.2.1 key.2.2
  · omega

theorem compress_slice_accesses_in_range_witness :
    (0 : Int) ≤ args_beyond.start_index ∧
    (Event.read_files 2 ∈ (compress_slice sys_three args_beyond).events ∨
      Event.write_finished 2 ∈ (compress_slice sys_three args_beyond).events) ∧
    (args_beyond.start_index ≤ 2 ∧ (2 : Int) < min args_beyond.end_index args_beyond.num_files ∧
      (0 : Int) ≤ 2 ∧ (2 : Int) < args_beyond.num_files) :=
  ⟨by decide, by decide,
    compress_slice_accesses_in_range sys_three args_beyond (by decide) 2 (by decide)⟩

/-- C10: when the files of the slices can be compressed, every slot from
index `NUM_THREADS * (N / NUM_THREADS)` on still holds the zeroed slot after
the workers have been joined, the writer emits for such a slot a zero size
field and no data bytes, and the archive written has one record for each of
the `N` slots, the last `N % NUM_THREADS` of them empty.  This holds for every
`N`, in particular for `N` not a multiple of `NUM_THREADS`. -/
theorem trailing_slots_stay_zero (sys : Sys) (d : CStr) (entries : List dirent)
    (hopen : sys.opendir d = some entries) (hw : sys.fopen_write = true)
    (hproc : ∀ name ∈ (qsort (read_files entries)).take
        (NUM_THREADS * ((qsort (read_files entries)).length / NUM_THREADS)),
      processable sys d name) :
    ∃ table, join_workers sys d (qsort (read_files entries)) = (table, none) ∧
      table.length = (qsort (read_files entries)).length ∧
      (∀ i, NUM_THREADS * ((qsort (read_files entries)).length / NUM_THREADS) ≤ i →
        i < (qsort (read_files entries)).length → table[i]? = some zero_slot) ∧
      write_archive sys.big_endian [zero_slot] = [0, 0, 0, 0] ∧
      compress_directory sys d =
        .returned 0 [] (some (write_archive sys.big_endian table)) ∧
      write_archive sys.big_endian table =
        write_archive sys.big_endian
            (table.take (NUM_THREADS * ((qsort (read_files entries)).length / NUM_THREADS))) ++
          (List.replicate ((qsort (read_files entries)).length % NUM_THREADS)
            [0, 0, 0, 0]).flatten := by
  have hj := join_workers_ok sys d (qsort (read_files entries)) hproc
  have hle : NUM_THREADS * ((qsort (read_files entries)).length / NUM_THREADS) ≤
      (qsort (read_files entries)).length := Nat.mul_div_le _ _
  have hlen1 : ((qsort (read_files entries)).take
      (NUM_THREADS * ((qsort (read_files entries)).length / NUM_THREADS))).length =
      NUM_THREADS * ((qsort (read_files entries)).length / NUM_THREADS) := by
    rw [List.length_take]; exact min_eq_left hle
  refine ⟨_, hj, ?_, ?_, ?_, ?_, ?_⟩
  · rw [List.length_append, List.length_map, hlen1, List.length_replicate]
    exact Nat.div_add_mod _ _
  · intro i h1 h2
    rw [List.getElem?_append_right (by rw [List.length_map, hlen1]; exact h1)]
    rw [List.getElem?_replicate, if_pos]
    rw [List.length_map, hlen1]
    have := Nat.div_add_mod (qsort (read_files entries)).length NUM_THREADS
    omega
  · have := write_archive_zero sys.big_endian 1
    simpa using this
  · unfold compress_directory
    simp only [hopen, hw, if_true, hj]
  · have hlen2 : (((qsort (read_files entries)).take
        (NUM_THREADS * ((qsort (read_files entries)).length / NUM_THREADS))).map
        (slot_of sys d)).length =
        NUM_THREADS * ((qsort (read_files entries)).length / NUM_THREADS) := by
      rw [List.length_map, hlen1]
    rw [List.take_append_of_le_length (le_of_eq hlen2.symm),
      List.take_of_length_le (le_of_eq hlen2), write_archive_append, write_archive_zero]

theorem trailing_slots_stay_zero_witness :
    sys_three.opendir (cstr "d") =
      some [entry "c.txt", entry ".", entry "a.txt", entry "..", entry "b.txt"] ∧
    qsort (read_files [entry "c.txt", entry ".", entry "a.txt", entry "..", entry "b.txt"]) =
      [cstr "a.txt", cstr "b.txt", cstr "c.txt"] ∧
    compress_directory sys_three (cstr "d") =
      .returned 0 [] (some [2, 0, 0, 0, 1, 65, 3, 0, 0, 0, 2, 66, 66, 0, 0, 0, 0]) ∧
    ∃ table, join_workers sys_three (cstr "d")
        (qsort (read_files
          [entry "c.txt", entry ".", entry "a.txt", entry "..", entry "b.txt"])) =
        (table, none) ∧
      table[2]? = some zero_slot ∧
      compress_directory sys_three (cstr "d") =
        .returned 0 [] (some (write_archive sys_three.big_endian table)) := by
  refine ⟨rfl, by decide, by decide, ?_⟩
  obtain ⟨table, h1, _, h3, _, h5, _⟩ := trailing_slots_stay_zero sys_three (cstr "d")
    [entry "c.txt", entry ".", entry "a.txt", entry "..", entry "b.txt"] rfl rfl
    (by
      intro name hname
      have hq : qsort (read_files
          [entry "c.txt", entry ".", entry "a.txt", entry "..", entry "b.txt"]) =
          [cstr "a.txt", cstr "b.txt", cstr "c.txt"] := by decide
      rw [hq] at hname
      simp only [NUM_THREADS, List.length_cons, List.length_nil, List.take, List.mem_cons,
        List.not_mem_nil, or_false] at hname
      rcases hname with rfl | rfl
      · exact ⟨cstr "A", rfl, by decide⟩
      · exact ⟨cstr "BB", rfl, by decide⟩)
  exact ⟨table, h1, h3 2 (by decide) (by decide), h5⟩

end EqualSlices
